import Mathlib

/-!
Verification of the blackboard / agent-loop core of the `cyber_ai` repository.

The embedding models Python JSON-like values (`Val`), the fill-empty-only
merge `BaseAgent.update_state_with_categories`, the `BlackboardAPI` state
machine with its durable-snapshot file, the extraction and command caches,
and the epsilon-greedy action selection, each translated from
`code/agents/base_agent.py` and `code/blackboard/api.py`.
-/

/-- Python JSON-like values as stored in the blackboard dictionaries:
`None`, strings, numbers, lists, and (insertion-ordered) dicts. -/
inductive Val where
  | vnull : Val
  | vstr : String → Val
  | vnat : Nat → Val
  | vlist : List Val → Val
  | vdict : List (String × Val) → Val

/-- Structure-respecting induction principle for the nested inductive `Val`:
list and dict cases receive the inductive hypothesis for every member. -/
def Val.inductionOn {motive : Val → Prop}
    (hnull : motive .vnull)
    (hstr : ∀ s, motive (.vstr s))
    (hnat : ∀ n, motive (.vnat n))
    (hlist : ∀ l, (∀ v, v ∈ l → motive v) → motive (.vlist l))
    (hdict : ∀ d, (∀ k v, (k, v) ∈ d → motive v) → motive (.vdict d)) :
    ∀ v, motive v
  | .vnull => hnull
  | .vstr s => hstr s
  | .vnat n => hnat n
  | .vlist l => hlist l (fun v hv =>
      have : sizeOf v < 1 + sizeOf l := by
        have := List.sizeOf_lt_of_mem hv
        omega
      Val.inductionOn hnull hstr hnat hlist hdict v)
  | .vdict d => hdict d (fun k v hv =>
      have : sizeOf v < 1 + sizeOf d := by
        have h1 := List.sizeOf_lt_of_mem hv
        have h2 : sizeOf (k, v) = 1 + sizeOf k + sizeOf v := by simp
        omega
      Val.inductionOn hnull hstr hnat hlist hdict v)
termination_by v => sizeOf v

mutual
/-- Structural equality on `Val`, modelling Python `==` on JSON-like data. -/
def Val.beq : Val → Val → Bool
  | .vnull, .vnull => true
  | .vstr a, .vstr b => a == b
  | .vnat a, .vnat b => a == b
  | .vlist a, .vlist b => Val.beqList a b
  | .vdict a, .vdict b => Val.beqDict a b
  | _, _ => false

/-- Pointwise `Val.beq` on lists. -/
def Val.beqList : List Val → List Val → Bool
  | [], [] => true
  | a :: la, b :: lb => Val.beq a b && Val.beqList la lb
  | _, _ => false

/-- Pointwise `Val.beq` on dict entry lists (keys compared in order). -/
def Val.beqDict : List (String × Val) → List (String × Val) → Bool
  | [], [] => true
  | (j, a) :: la, (k, b) :: lb => j == k && Val.beq a b && Val.beqDict la lb
  | _, _ => false
end

/-- Decidable equality on `Val` via `Val.beq`, shown on the fly to agree
with propositional equality. -/
instance : DecidableEq Val := fun a0 b0 =>
  decidable_of_iff (Val.beq a0 b0 = true) (by
    revert b0
    show ∀ b : Val, Val.beq a0 b = true ↔ a0 = b
    induction a0 using Val.inductionOn with
      | hnull => intro b; cases b <;> simp [Val.beq]
      | hstr s => intro b; cases b <;> simp [Val.beq]
      | hnat n => intro b; cases b <;> simp [Val.beq]
      | hlist l ih =>
        intro b
        cases b <;> simp only [Val.beq] <;> try simp
        case vlist lb =>
          constructor
          · intro h
            induction l generalizing lb with
            | nil => cases lb with | nil => rfl | cons x xs => simp [Val.beqList] at h
            | cons x xs ihx =>
              cases lb with
              | nil => simp [Val.beqList] at h
              | cons y ys =>
                simp only [Val.beqList, Bool.and_eq_true] at h
                have hx : x = y := (ih x (by simp) y).mp h.1
                have hrest := ihx (fun v hv b => ih v (by simp [hv]) b) ys h.2
                simp at hrest
                simp [hx, hrest]
          · rintro rfl
            induction l with
            | nil => rfl
            | cons x xs ihx =>
              simp only [Val.beqList, Bool.and_eq_true]
              exact ⟨(ih x (by simp) x).mpr rfl, ihx (fun v hv b => ih v (by simp [hv]) b)⟩
      | hdict d ih =>
        intro b
        cases b <;> simp only [Val.beq] <;> try simp
        case vdict db =>
          constructor
          · intro h
            induction d generalizing db with
            | nil => cases db with | nil => rfl | cons x xs => simp [Val.beqDict] at h
            | cons x xs ihx =>
              obtain ⟨j, a⟩ := x
              cases db with
              | nil => simp [Val.beqDict] at h
              | cons y ys =>
                obtain ⟨k, c⟩ := y
                simp only [Val.beqDict, Bool.and_eq_true] at h
                have hk : j = k := by simpa using h.1.1
                have ha : a = c := (ih j a (by simp) c).mp h.1.2
                have hrest := ihx (fun k2 v hv b => ih k2 v (by simp; right; exact hv) b) ys h.2
                simp at hrest
                simp [hk, ha, hrest]
          · rintro rfl
            induction d with
            | nil => rfl
            | cons x xs ihx =>
              obtain ⟨j, a⟩ := x
              simp only [Val.beqDict, Bool.and_eq_true]
              refine ⟨⟨by simp, (ih j a (by simp) a).mpr rfl⟩,
                ihx (fun k2 v hv b => ih k2 v (by simp; right; exact hv) b)⟩)

/-- Association-list lookup, modelling Python `d[k]` / `d.get(k)` on a dict
whose keys are unique. -/
def alookup {α : Type} : List (String × α) → String → Option α
  | [], _ => none
  | (k, v) :: rest, key => if k == key then some v else alookup rest key

/-- Python `d[k] = v` on a dict: overwrite in place if the key exists
(keeping its position), else append the new key at the end. -/
def aset {α : Type} (d : List (String × α)) (k : String) (v : α) : List (String × α) :=
  if (alookup d k).isSome then
    d.map (fun p => bif p.1 == k then (p.1, v) else p)
  else
    d ++ [(k, v)]

/-- Python `str.lower()` (kernel-computable, unlike `String.toLower`). -/
def pyLower (s : String) : String := String.mk (s.data.map Char.toLower)

/-- Python whitespace for `str.strip()`. -/
def isPyWS (c : Char) : Bool :=
  c == ' ' || c == '\t' || c == '\n' || c == '\r' || c == '\x0b' || c == '\x0c'

/-- Python `str.strip()`: drop leading and trailing whitespace. -/
def pyStrip (s : String) : String :=
  String.mk (((s.data.dropWhile isPyWS).reverse.dropWhile isPyWS).reverse)

/-- The emptiness test `state_val in ["", None]` used by
`update_state_with_categories`: only the empty string and `None` count. -/
def emptyScalar : Val → Bool
  | .vnull => true
  | .vstr s => s == ""
  | _ => false

/-- A value that is neither a dict nor a list. -/
def isScalar : Val → Bool
  | .vdict _ => false
  | .vlist _ => false
  | _ => true

/-- The list branch of `update_state_with_categories.recurse`:
`for item in cat_val: if item not in state_val: state_val.append(item)`,
with membership checked against the growing list. -/
def listUnion (sl : List Val) : List Val → List Val
  | [] => sl
  | c :: cs => if c ∈ sl then listUnion sl cs else listUnion (sl ++ [c]) cs

mutual
/-- `BaseAgent.update_state_with_categories.recurse(state_node, category_node)`
from `code/agents/base_agent.py`, as a pure function (the Python code mutates a
deep copy of the state in place and never aliases it back, so the in-place
update is equivalent to returning a new value):
- both dicts: per-key recursion, keys missing from the state are ignored;
- category value a dict but state value not a dict: no change;
- both lists: `listUnion`;
- otherwise: a category value other than the string `"NO"` fills the state
  leaf only when the leaf is `""` or `None`. -/
def recurse : Val → Val → Val
  | .vdict sd, .vdict cd => .vdict (recurseDict sd cd)
  | s, .vdict _ => s
  | .vlist sl, .vlist cl => .vlist (listUnion sl cl)
  | s, c => if c = .vstr "NO" then s else if emptyScalar s then c else s

/-- The dict case of `recurse`: iterate the state's keys in order; a key also
present in the category dict is merged recursively, any other key is kept. -/
def recurseDict : List (String × Val) → List (String × Val) → List (String × Val)
  | [], _ => []
  | (k, v) :: rest, cd =>
    (k, match alookup cd k with
        | some cv => recurse v cv
        | none => v) :: recurseDict rest cd
end

/-- `BaseAgent.update_state_with_categories(state, categories)`: deep-copies
`state` and runs `recurse` over it, returning the merged copy. -/
def update_state_with_categories (state categories : List (String × Val)) :
    List (String × Val) :=
  recurseDict state categories

mutual
/-- Monotone knowledge extension: the old value is a dict with the same keys
extended pointwise, a list of which the old list is a prefix, or a scalar
that was empty or is unchanged. -/
def monoExtends : Val → Val → Bool
  | .vdict od, .vdict nd => dictMono od nd
  | .vlist ol, .vlist nl => ol.isPrefixOf nl
  | o, n => emptyScalar o || o == n

/-- Pointwise `monoExtends` over dict entries, requiring identical keys in
identical order. -/
def dictMono : List (String × Val) → List (String × Val) → Bool
  | [], [] => true
  | (j, v) :: r, (k, w) :: r2 => j == k && monoExtends v w && dictMono r r2
  | _, _ => false
end

mutual
/-- The nested dict-key structure of a value: dict spines are kept, every
other value (scalars and lists alike) is erased to `vnull`. -/
def shape : Val → Val
  | .vdict d => .vdict (shapeDict d)
  | _ => .vnull

/-- Pointwise `shape` over dict entries. -/
def shapeDict : List (String × Val) → List (String × Val)
  | [] => []
  | (k, v) :: rest => (k, shape v) :: shapeDict rest
end

/-- The `BlackboardAPI` state: the in-memory blackboard dict and the contents
of the durable JSON snapshot file (`none` until the first successful write).
Ghost field `file` models what `json.dump` last wrote to `json_path`. -/
structure Blackboard where
  mem : List (String × Val)
  file : Option (List (String × Val))
deriving DecidableEq

/-- `BlackboardAPI._save_to_file` on the success path: the durable file now
holds the full serialized current state. (The `except` branch, a
`PersistenceError`, merely logs; it is not modelled.) -/
def save_to_file (bb : Blackboard) : Blackboard :=
  { bb with file := some bb.mem }

/-- `BlackboardAPI.fill_state(actions_history)`: resets the three per-step
fields in memory. Note: it does NOT call `_save_to_file`. -/
def fill_state (bb : Blackboard) (actions_history : Val) : Blackboard :=
  let m := aset (aset (aset bb.mem "actions_history" actions_history)
    "cpes" (.vlist [])) "vulnerabilities_found" (.vlist [])
  { bb with mem := m }

/-- `BlackboardAPI.append_action_log(entry)`: stamps the entry with a
timestamp, but the line appending it to `actions_log` is commented out
(`#self.blackboard.setdefault("actions_log", []).append(entry)`), so only
`_save_to_file` runs and the blackboard itself is unchanged. -/
def append_action_log (bb : Blackboard) (entry : List (String × Val))
    (now : Nat) : Blackboard :=
  let _stamped := aset entry "timestamp" (.vnat now)
  save_to_file bb

/-- Python `d.setdefault(key, []).append(item)` on a dict whose `key` slot is
absent or holds a list (as all call sites guarantee; a non-list slot would
raise in Python and is modelled as a no-op). -/
def setdefault_append (d : List (String × Val)) (key : String) (item : Val) :
    List (String × Val) :=
  match alookup d key with
  | some (.vlist l) => aset d key (.vlist (l ++ [item]))
  | some _ => d
  | none => d ++ [(key, .vlist [item])]

/-- `BlackboardAPI.record_reward(action, reward)`: appends a timestamped
entry to `reward_log` and persists. -/
def record_reward (bb : Blackboard) (action : String) (reward : Val)
    (now : Nat) : Blackboard :=
  let entry := Val.vdict [("action", .vstr action), ("reward", reward),
    ("timestamp", .vnat now)]
  save_to_file { bb with mem := setdefault_append bb.mem "reward_log" entry }

/-- `BlackboardAPI.add_error(agent, action, error)`: appends a timestamped
entry to `errors` and persists. -/
def add_error (bb : Blackboard) (agent action error : String) (now : Nat) :
    Blackboard :=
  let entry := Val.vdict [("agent", .vstr agent), ("action", .vstr action),
    ("error", .vstr error), ("timestamp", .vnat now)]
  save_to_file { bb with mem := setdefault_append bb.mem "errors" entry }

/-- `BlackboardAPI.update_target_services(new_services)`: appends each service
not already present to the existing `target.services` list. When the
`services` key is absent, Python's `.get("services", [])` returns a fresh
list whose mutation is discarded, so the blackboard is unchanged. Note: it
does NOT call `_save_to_file`. -/
def update_target_services (bb : Blackboard) (new_services : List Val) :
    Blackboard :=
  match alookup bb.mem "target" with
  | some (.vdict t) =>
    match alookup t "services" with
    | some (.vlist existing) =>
      let t2 := Val.vdict (aset t "services" (.vlist (listUnion existing new_services)))
      { bb with mem := aset bb.mem "target" t2 }
    | _ => bb
  | _ => bb

/-- Python `dict.update(upd)`: keys already present are overwritten in place,
new keys are appended in `upd` order. -/
def dictUpdate (d upd : List (String × Val)) : List (String × Val) :=
  (d.map fun p =>
    match alookup upd p.1 with
    | some nv => (p.1, nv)
    | none => p)
  ++ upd.filter (fun q => (alookup d q.1).isNone)

/-- `BlackboardAPI._update_from_recon_agent(new_state)`:
`self.blackboard.setdefault("target", {}).update(new_state["target"])` plus a
wholesale overwrite of `web_directories_status`. A present non-dict
`target` slot (which would raise in Python) is modelled by starting from the
empty dict. -/
def update_from_recon_agent (bb : Blackboard) (ns : List (String × Val)) :
    Blackboard :=
  let m1 :=
    match alookup ns "target" with
    | some (.vdict nt) =>
      let cur := match alookup bb.mem "target" with
        | some (.vdict t) => t
        | _ => []
      aset bb.mem "target" (.vdict (dictUpdate cur nt))
    | _ => bb.mem
  let m2 :=
    match alookup ns "web_directories_status" with
    | some w => aset m1 "web_directories_status" w
    | none => m1
  { bb with mem := m2 }

/-- `BlackboardAPI._update_from_vuln_agent(new_state)`: wholesale overwrite
of `cpes` and `vulnerabilities_found` when present. -/
def update_from_vuln_agent (bb : Blackboard) (ns : List (String × Val)) :
    Blackboard :=
  let m1 :=
    match alookup ns "cpes" with
    | some v => aset bb.mem "cpes" v
    | none => bb.mem
  let m2 :=
    match alookup ns "vulnerabilities_found" with
    | some v => aset m1 "vulnerabilities_found" v
    | none => m1
  { bb with mem := m2 }

/-- `BlackboardAPI.update_state(agent_name, new_state)`: dispatches on the
lowercased agent name to a role reducer, then persists; an unknown name
raises `ValueError` (the `new_state` type check is trivially satisfied in the
typed embedding). -/
def update_state (agent_name : String) (bb : Blackboard)
    (ns : List (String × Val)) : Except String Blackboard :=
  if pyLower agent_name == "reconagent" then
    .ok (save_to_file (update_from_recon_agent bb ns))
  else if pyLower agent_name == "vulnagent" then
    .ok (save_to_file (update_from_vuln_agent bb ns))
  else
    .error ("Unknown agent name: " ++ agent_name)

/-- `BlackboardAPI.overwrite_blackboard(new_state)`: clears the blackboard,
replaces it with `new_state`, and persists. -/
def overwrite_blackboard (bb : Blackboard) (ns : List (String × Val)) :
    Blackboard :=
  save_to_file { bb with mem := ns }

/-- The epsilon-greedy policy fields of `BaseAgent` (floats modelled as
rationals). Defaults in the source: `min_epsilon = 0.01`,
`epsilon_decay = 0.995`. -/
structure AgentPolicy where
  epsilon : Rat
  min_epsilon : Rat
  epsilon_decay : Rat
deriving DecidableEq

/-- `np.argmax` over the flattened Q-values starting from index `i` with the
current best index and value: returns the index of the first maximum. -/
def argmaxFrom (i best : Nat) (bv : Rat) : List Rat → Nat
  | [] => best
  | x :: xs => if bv < x then argmaxFrom (i + 1) i x xs else argmaxFrom (i + 1) best bv xs

/-- `np.argmax`: index of the first occurrence of the maximum (0 on an empty
list, which numpy would reject). -/
def argmaxIdx : List Rat → Nat
  | [] => 0
  | x :: xs => argmaxFrom 1 0 x xs

/-- `BaseAgent.choose_action(state_vector)`: draw `rnd = random.random()`;
if `rnd < epsilon` pick `random.randint(0, len(action_space) - 1)` (modelled
by the `randIdx` parameter), else `np.argmax(q_values)`; return the action at
that index together with the (unchanged) policy state. Neither branch
mutates `epsilon`. -/
def choose_action (a : AgentPolicy) (action_space : List String)
    (q_values : List Rat) (rnd : Rat) (randIdx : Nat) : String × AgentPolicy :=
  let action_index := if rnd < a.epsilon then randIdx else argmaxIdx q_values
  (action_space.getD action_index "", a)

/-- `BaseAgent.decay_epsilon()`:
`self.epsilon = max(self.epsilon * self.epsilon_decay, self.min_epsilon)`. -/
def decay_epsilon (a : AgentPolicy) : AgentPolicy :=
  { a with epsilon := max (a.epsilon * a.epsilon_decay) a.min_epsilon }

/-- A value stored in the LLM extraction cache: either a parsed JSON list
(stored when the reply parses as a list) or raw text. -/
inductive CacheVal where
  | clist : List Val → CacheVal
  | ctext : String → CacheVal
deriving DecidableEq

/-- Python truthiness of a cached entry, as tested by
`if cached_response:` in `parse_output`. -/
def truthyCache : CacheVal → Bool
  | .clist l => !l.isEmpty
  | .ctext s => !(s == "")

/-- The extraction-cache state of `parse_output`: the `LLMCache` mapping plus
a ghost counter of external extraction calls (`self.model.run`). -/
structure ExtractionState where
  cache : List (String × CacheVal)
  calls : Nat
deriving DecidableEq

/-- Write-time classification of a model reply (`is_valid_json` +
`json.loads` + list check, abstracted by the JSON-list parser `tryList`):
a reply parsing as a JSON list is stored parsed, anything else is stored as
the stripped raw text. -/
def classifyReply (tryList : String → Option (List Val)) (reply : String) :
    CacheVal :=
  match tryList reply with
  | some l => .clist l
  | none => .ctext (pyStrip reply)

/-- One iteration of the `for cat_path in category_paths` loop of
`BaseAgent.parse_output`, for cache key `key = f"{action}::{cat_path}"`.
`model` bundles the external round trip (prompt construction, `model.run`,
`extract_model_response`). A cached truthy entry is used as-is; a miss or a
falsy cached entry (`if cached_response:` is Python truthiness) invokes the
model and stores the classified reply. -/
def parse_output_step (tryList : String → Option (List Val))
    (model : String → String) (st : ExtractionState) (key : String) :
    ExtractionState :=
  let hit := match alookup st.cache key with
    | some cv => truthyCache cv
    | none => false
  if hit then st
  else
    { cache := aset st.cache key (classifyReply tryList (model key)),
      calls := st.calls + 1 }

/-- `BaseAgent.parse_output`: runs the per-leaf extraction loop over every
category path, with cache keys `action::path`. -/
def parse_output (tryList : String → Option (List Val))
    (model : String → String) (st : ExtractionState)
    (action : String) (category_paths : List String) : ExtractionState :=
  category_paths.foldl
    (fun s p => parse_output_step tryList model s (action ++ "::" ++ p)) st

/-- The per-agent command-execution state: the `command_cache`, the
blackboard (for `add_error`), and a ghost counter of external command
invocations (`run_clean_output`). -/
structure CommandState where
  command_cache : List (String × String)
  bb : Blackboard
  calls : Nat
deriving DecidableEq

/-- The target address used by `perform_action`:
`self.blackboard_api.blackboard.get("target", {}).get("ip", "127.0.0.1")`. -/
def target_ip (bb : Blackboard) : String :=
  match alookup bb.mem "target" with
  | some (.vdict t) =>
    match alookup t "ip" with
    | some (.vstr s) => s
    | _ => "127.0.0.1"
  | _ => "127.0.0.1"

/-- `BaseAgent.perform_action(action)`: format the command with the target
address, serve a cached action from `command_cache` untouched; otherwise run
the external command facility `run` (`run_clean_output` with a bounded
timeout); on an exception record an error on the blackboard and substitute
empty output; finally cache and return the output. -/
def perform_action (run : String → Except String String) (agent_name : String)
    (st : CommandState) (action : String) (now : Nat) : CommandState × String :=
  let command := action.replace "{ip}" (target_ip st.bb)
  match alookup st.command_cache action with
  | some cached => (st, cached)
  | none =>
    let stepped :=
      match run command with
      | .ok out => ({ st with calls := st.calls + 1 }, out)
      | .error e =>
        ({ st with calls := st.calls + 1,
                   bb := add_error st.bb agent_name action e now }, "")
    ({ stepped.1 with
        command_cache := aset stepped.1.command_cache action stepped.2 },
     stepped.2)

/-- Modelled from the spec: `initialize_blackboard` lives in
`code/blackboard/blackboard.py`, which is not part of the provided sources;
the spec fixes the blackboard to "a nested mapping keyed by dotted paths
... matching a fixed template" and `config.py` (provided) carries that
template as `_BASE_DEFAULT_STATE`, transcribed here verbatim. -/
def init_blackboard : List (String × Val) :=
  [("target", .vdict
    [("hostname", .vstr ""),
     ("netbios_name", .vstr ""),
     ("os", .vdict
       [("name", .vstr ""),
        ("distribution", .vdict
          [("name", .vstr ""), ("version", .vstr ""), ("architecture", .vstr "")]),
        ("kernel", .vstr "")]),
     ("services", .vlist
       [.vdict [("port", .vstr ""), ("protocol", .vstr ""), ("service", .vstr ""),
                ("server_type", .vstr ""), ("server_version", .vstr "")]]),
     ("rpc_services", .vlist
       [.vdict [("program_number", .vstr ""), ("version", .vstr ""),
                ("protocol", .vstr ""), ("port", .vstr ""), ("service_name", .vstr "")]]),
     ("geo_location", .vdict
       [("country", .vstr ""), ("region", .vstr ""), ("city", .vstr "")]),
     ("ssl", .vdict
       [("issuer", .vstr ""), ("protocols", .vlist [.vstr ""])])])]

mutual
/-- Modelled from the spec: `clean_state(state, template)` (from
`utils.state_check.state_correctness`, not under the provided sources) is a
pure transform that "drops any key absent from the template at any depth and
inserts missing template keys with neutral empty values"; list-valued fields
are opaque leaves. -/
def clean_state : Val → Val → Val
  | .vdict sd, .vdict td => .vdict (cleanDict sd td)
  | _, .vdict td => .vdict td
  | s, _ => s

/-- Per-template-key traversal of `clean_state`: the result has exactly the
template's keys, keeping the state's value where one exists. -/
def cleanDict (sd : List (String × Val)) : List (String × Val) → List (String × Val)
  | [] => []
  | (k, tv) :: rest =>
    (k, match alookup sd k with
        | some sv => clean_state sv tv
        | none => tv) :: cleanDict sd rest
end

/-- Insertion into a key-sorted dict entry list (ties keep the inserted
entry first, irrelevant for unique keys). -/
def insertByKey (p : String × Val) : List (String × Val) → List (String × Val)
  | [] => [p]
  | q :: rest =>
    match compare p.1 q.1 with
    | .gt => q :: insertByKey p rest
    | _ => p :: q :: rest

/-- Insertion sort of dict entries by key. -/
def sortByKey : List (String × Val) → List (String × Val)
  | [] => []
  | p :: rest => insertByKey p (sortByKey rest)

mutual
/-- Modelled from the spec: `sort_state(state)` (from
`utils.state_check.state_sorting`, not under the provided sources) is a pure
transform that "imposes a deterministic key order for stable
diffs/serialization"; dict keys are ordered lexicographically at every dict
depth, lists are opaque leaves. -/
def sort_state : Val → Val
  | .vdict d => .vdict (sortByKey (sortDictVals d))
  | v => v

/-- Recursive sorting of each dict entry's value. -/
def sortDictVals : List (String × Val) → List (String × Val)
  | [] => []
  | (k, v) :: rest => (k, sort_state v) :: sortDictVals rest
end

/-- `BaseAgent.check_state(current_state)`: the live lines are
`new_state = clean_state(current_state, initialize_blackboard())`, the
(always-satisfied) dict check, and `new_state = sort_state(new_state)`;
the validate/merge/correct stages are commented out in the source. -/
def check_state (current_state : Val) : Val :=
  sort_state (clean_state current_state (.vdict init_blackboard))

/-- The commit slice of `BaseAgent.run` (step 5): the merged fragment
`new_info = update_state_with_categories(last_state, new_info0)` is the value
passed to `blackboard_api.update_state`; `check_state(new_info)` is invoked
but its return value is discarded. -/
def run_commit_fragment (last_state new_info0 : List (String × Val)) :
    List (String × Val) :=
  let new_info := update_state_with_categories last_state new_info0
  let _pipeline := check_state (.vdict new_info)
  new_info

/-- Concrete blackboard whose durable file matches memory, for the C5
counterexample and witness. -/
def bbServices : Blackboard where
  mem := [("target", .vdict [("services", .vlist [])])]
  file := some [("target", .vdict [("services", .vlist [])])]

/-- Concrete unsaved blackboard used by the C5 witness. -/
def bbBox : Blackboard where
  mem := [("target", .vdict [("hostname", .vstr "box1")])]
  file := none

/-- Concrete policy state for the C7 witness and counterexample. -/
def policy0 : AgentPolicy where
  epsilon := 1
  min_epsilon := 0
  epsilon_decay := 0

theorem mem_listUnion_left {a : Val} : ∀ (sl cl : List Val), a ∈ sl → a ∈ listUnion sl cl := by
  intro sl cl
  induction cl generalizing sl with
  | nil => intro h; simpa [listUnion] using h
  | cons c cs ih =>
    intro h
    simp only [listUnion]
    split
    · exact ih sl h
    · exact ih (sl ++ [c]) (List.mem_append_left _ h)

theorem mem_listUnion_right {a : Val} : ∀ (sl cl : List Val), a ∈ cl → a ∈ listUnion sl cl := by
  intro sl cl
  induction cl generalizing sl with
  | nil => intro h; simp at h
  | cons c cs ih =>
    intro h
    simp only [listUnion]
    rcases List.mem_cons.mp h with rfl | h2
    · split
      · next hc => exact mem_listUnion_left sl cs hc
      · exact mem_listUnion_left (sl ++ [a]) cs (by simp)
    · split <;> exact ih _ h2

theorem listUnion_eq_self : ∀ (sl cl : List Val), (∀ a ∈ cl, a ∈ sl) → listUnion sl cl = sl := by
  intro sl cl
  induction cl generalizing sl with
  | nil => intro _; rfl
  | cons c cs ih =>
    intro h
    simp only [listUnion]
    rw [if_pos (h c (by simp))]
    exact ih sl (fun a ha => h a (by simp [ha]))

theorem listUnion_self (cl : List Val) : listUnion cl cl = cl :=
  listUnion_eq_self _ _ (fun _ ha => ha)

theorem listUnion_idem (sl cl : List Val) :
    listUnion (listUnion sl cl) cl = listUnion sl cl :=
  listUnion_eq_self _ _ (fun _ ha => mem_listUnion_right sl cl ha)

theorem listUnion_prefix : ∀ (sl cl : List Val), sl <+: listUnion sl cl := by
  intro sl cl
  induction cl generalizing sl with
  | nil => exact List.prefix_refl sl
  | cons c cs ih =>
    simp only [listUnion]
    split
    · exact ih sl
    · exact List.IsPrefix.trans (List.prefix_append sl [c]) (ih (sl ++ [c]))

theorem recurse_dict_dict (sd cd : List (String × Val)) :
    recurse (.vdict sd) (.vdict cd) = .vdict (recurseDict sd cd) := by
  simp [recurse]

theorem recurse_list_list (sl cl : List Val) :
    recurse (.vlist sl) (.vlist cl) = .vlist (listUnion sl cl) := by
  simp [recurse]

/-- A category value equal to the string `"NO"` is always ignored. -/
theorem recurse_no_sentinel (s : Val) : recurse s (.vstr "NO") = s := by
  cases s <;> simp [recurse]

theorem recurseDict_idem_of : ∀ (sd cd : List (String × Val)),
    (∀ k v, (k, v) ∈ sd → ∀ cv, recurse (recurse v cv) cv = recurse v cv) →
    recurseDict (recurseDict sd cd) cd = recurseDict sd cd := by
  intro sd cd
  induction sd with
  | nil => intro _; rfl
  | cons p rest ih =>
    intro IH
    obtain ⟨k, v⟩ := p
    simp only [recurseDict]
    cases h : alookup cd k with
    | none =>
      simp only [h]
      exact List.cons_eq_cons.mpr ⟨rfl, ih (fun k2 v2 hm cv => IH k2 v2 (by simp [hm]) cv)⟩
    | some cv =>
      simp only [h]
      exact List.cons_eq_cons.mpr
        ⟨by rw [IH k v (by simp) cv],
         ih (fun k2 v2 hm cv2 => IH k2 v2 (by simp [hm]) cv2)⟩

/-- Applying the fill-empty-only merge twice with the same fragment yields
the same value as applying it once. -/
theorem recurse_idem : ∀ s c, recurse (recurse s c) c = recurse s c := by
  intro s
  induction s using Val.inductionOn with
  | hnull =>
    intro c
    cases c with
    | vnull => simp [recurse, emptyScalar]
    | vstr t =>
      by_cases ht : t = "NO"
      · subst ht; simp [recurse_no_sentinel]
      · simp [recurse, emptyScalar, ht]
    | vnat n => simp [recurse, emptyScalar]
    | vlist cl => simp [recurse, emptyScalar, listUnion_self]
    | vdict cd => simp [recurse]
  | hstr t0 =>
    intro c
    by_cases h0 : t0 = ""
    · subst h0
      cases c with
      | vnull => simp [recurse, emptyScalar]
      | vstr t =>
        by_cases ht : t = "NO"
        · subst ht; simp [recurse_no_sentinel]
        · by_cases he : t = ""
          · subst he; simp [recurse, emptyScalar]
          · simp [recurse, emptyScalar, ht, he]
      | vnat n => simp [recurse, emptyScalar]
      | vlist cl => simp [recurse, emptyScalar, listUnion_self]
      | vdict cd => simp [recurse]
    · cases c with
      | vnull => simp [recurse, emptyScalar, h0]
      | vstr t => simp [recurse, emptyScalar, h0]
      | vnat n => simp [recurse, emptyScalar, h0]
      | vlist cl => simp [recurse, emptyScalar, h0]
      | vdict cd => simp [recurse]
  | hnat n0 =>
    intro c
    cases c <;> simp [recurse, emptyScalar]
  | hlist sl ih =>
    intro c
    cases c with
    | vnull => simp [recurse, emptyScalar]
    | vstr t => simp [recurse, emptyScalar]
    | vnat n => simp [recurse, emptyScalar]
    | vlist cl => simp [recurse_list_list, listUnion_idem]
    | vdict cd => simp [recurse]
  | hdict sd ih =>
    intro c
    cases c with
    | vnull => simp [recurse, emptyScalar]
    | vstr t => simp [recurse, emptyScalar]
    | vnat n => simp [recurse, emptyScalar]
    | vlist cl => simp [recurse, emptyScalar]
    | vdict cd =>
      simp only [recurse_dict_dict]
      exact congrArg Val.vdict (recurseDict_idem_of sd cd (fun k v hm cv => ih k v hm cv))

theorem mono_refl : ∀ v, monoExtends v v = true := by
  intro v
  induction v using Val.inductionOn with
  | hnull => simp [monoExtends]
  | hstr s => simp [monoExtends]
  | hnat n => simp [monoExtends]
  | hlist l ih => simp [monoExtends, List.isPrefixOf_iff_prefix]
  | hdict d ih =>
    simp only [monoExtends]
    induction d with
    | nil => rfl
    | cons p rest ihd =>
      obtain ⟨k, v⟩ := p
      simp only [dictMono, Bool.and_eq_true]
      exact ⟨⟨by simp, ih k v (by simp)⟩, ihd (fun k2 v2 hm => ih k2 v2 (by simp [hm]))⟩

theorem dictMono_refl (d : List (String × Val)) : dictMono d d = true := by
  have := mono_refl (.vdict d)
  simpa [monoExtends] using this

theorem mono_of_empty {o : Val} (h : emptyScalar o = true) :
    ∀ n, monoExtends o n = true := by
  intro n
  cases o with
  | vnull => cases n <;> simp [monoExtends, emptyScalar]
  | vstr s =>
    have hs : s = "" := by simpa [emptyScalar] using h
    subst hs
    cases n <;> simp [monoExtends, emptyScalar]
  | vnat k => simp [emptyScalar] at h
  | vlist l => simp [emptyScalar] at h
  | vdict d => simp [emptyScalar] at h

theorem dictMono_trans_of : ∀ (ad : List (String × Val)),
    (∀ k v, (k, v) ∈ ad → ∀ b c, monoExtends v b = true → monoExtends b c = true →
      monoExtends v c = true) →
    ∀ bd cd, dictMono ad bd = true → dictMono bd cd = true → dictMono ad cd = true := by
  intro ad
  induction ad with
  | nil =>
    intro _ bd cd hab hbc
    cases bd with
    | nil =>
      cases cd with
      | nil => rfl
      | cons q qs => simp [dictMono] at hbc
    | cons p ps => simp [dictMono] at hab
  | cons p ps ihd =>
    intro IH bd cd hab hbc
    obtain ⟨j, v⟩ := p
    cases bd with
    | nil => simp [dictMono] at hab
    | cons q qs =>
      obtain ⟨k, w⟩ := q
      cases cd with
      | nil => simp [dictMono] at hbc
      | cons r rs =>
        obtain ⟨m, u⟩ := r
        simp only [dictMono, Bool.and_eq_true] at hab hbc ⊢
        refine ⟨⟨?_, ?_⟩, ?_⟩
        · simp only [beq_iff_eq] at hab hbc ⊢
          exact hab.1.1.trans hbc.1.1
        · exact IH j v (by simp) w u hab.1.2 hbc.1.2
        · exact ihd (fun k2 v2 hm => IH k2 v2 (by simp [hm])) qs rs hab.2 hbc.2

theorem mono_trans : ∀ a b c, monoExtends a b = true → monoExtends b c = true →
    monoExtends a c = true := by
  intro a
  induction a using Val.inductionOn with
  | hnull =>
    intro b c _ _
    exact mono_of_empty (by simp [emptyScalar]) c
  | hstr s =>
    intro b c hab hbc
    by_cases hs : s = ""
    · subst hs; exact mono_of_empty (by simp [emptyScalar]) c
    · have : Val.vstr s = b := by
        cases b <;> simp [monoExtends, emptyScalar, hs] at hab <;> simp [hab]
      rw [← this] at hbc
      exact hbc
  | hnat n =>
    intro b c hab hbc
    have : Val.vnat n = b := by
      cases b <;> simp [monoExtends, emptyScalar] at hab <;> simp [hab]
    rw [← this] at hbc
    exact hbc
  | hlist l ih =>
    intro b c hab hbc
    cases b with
    | vlist bl =>
      cases c with
      | vlist cl =>
        simp only [monoExtends, List.isPrefixOf_iff_prefix] at hab hbc ⊢
        exact hab.trans hbc
      | vnull => simp [monoExtends, emptyScalar] at hbc
      | vstr t => simp [monoExtends, emptyScalar] at hbc
      | vnat k => simp [monoExtends, emptyScalar] at hbc
      | vdict d => simp [monoExtends, emptyScalar] at hbc
    | vnull => simp [monoExtends, emptyScalar] at hab
    | vstr t => simp [monoExtends, emptyScalar] at hab
    | vnat k => simp [monoExtends, emptyScalar] at hab
    | vdict d => simp [monoExtends, emptyScalar] at hab
  | hdict d ih =>
    intro b c hab hbc
    cases b with
    | vdict bd =>
      cases c with
      | vdict cd =>
        simp only [monoExtends] at hab hbc ⊢
        exact dictMono_trans_of d (fun k v hm => ih k v hm) bd cd hab hbc
      | vnull => simp [monoExtends, emptyScalar] at hbc
      | vstr t => simp [monoExtends, emptyScalar] at hbc
      | vnat k => simp [monoExtends, emptyScalar] at hbc
      | vlist bl => simp [monoExtends, emptyScalar] at hbc
    | vnull => simp [monoExtends, emptyScalar] at hab
    | vstr t => simp [monoExtends, emptyScalar] at hab
    | vnat k => simp [monoExtends, emptyScalar] at hab
    | vlist bl => simp [monoExtends, emptyScalar] at hab

theorem dictMono_recurseDict_of : ∀ (sd cd : List (String × Val)),
    (∀ k v, (k, v) ∈ sd → ∀ cv, monoExtends v (recurse v cv) = true) →
    dictMono sd (recurseDict sd cd) = true := by
  intro sd cd
  induction sd with
  | nil => intro _; rfl
  | cons p rest ihd =>
    intro IH
    obtain ⟨k, v⟩ := p
    simp only [recurseDict]
    cases h : alookup cd k with
    | none =>
      simp only [dictMono, Bool.and_eq_true]
      exact ⟨⟨by simp, mono_refl v⟩, ihd (fun k2 v2 hm cv => IH k2 v2 (by simp [hm]) cv)⟩
    | some cv =>
      simp only [dictMono, Bool.and_eq_true]
      exact ⟨⟨by simp, IH k v (by simp) cv⟩,
        ihd (fun k2 v2 hm cv2 => IH k2 v2 (by simp [hm]) cv2)⟩

/-- One fill-empty-only merge step only extends knowledge: it never changes a
non-empty scalar and only appends to lists. -/
theorem mono_recurse : ∀ s c, monoExtends s (recurse s c) = true := by
  intro s
  induction s using Val.inductionOn with
  | hnull =>
    intro c
    exact mono_of_empty (by simp [emptyScalar]) _
  | hstr t =>
    intro c
    by_cases ht : t = ""
    · subst ht; exact mono_of_empty (by simp [emptyScalar]) _
    · cases c with
      | vnull => simp [recurse, emptyScalar, ht, mono_refl]
      | vstr u => simp [recurse, emptyScalar, ht, mono_refl]
      | vnat n => simp [recurse, emptyScalar, ht, mono_refl]
      | vlist cl => simp [recurse, emptyScalar, ht, mono_refl]
      | vdict cd => simp [recurse, mono_refl]
  | hnat n =>
    intro c
    cases c <;> simp [recurse, emptyScalar, mono_refl]
  | hlist sl ih =>
    intro c
    cases c with
    | vnull => simp [recurse, emptyScalar, mono_refl]
    | vstr u => simp [recurse, emptyScalar, mono_refl]
    | vnat n => simp [recurse, emptyScalar, mono_refl]
    | vlist cl =>
      simp only [recurse_list_list, monoExtends, List.isPrefixOf_iff_prefix]
      exact listUnion_prefix sl cl
    | vdict cd => simp [recurse, mono_refl]
  | hdict sd ih =>
    intro c
    cases c with
    | vnull => simp [recurse, emptyScalar, mono_refl]
    | vstr u => simp [recurse, emptyScalar, mono_refl]
    | vnat n => simp [recurse, emptyScalar, mono_refl]
    | vlist cl => simp [recurse, emptyScalar, mono_refl]
    | vdict cd =>
      simp only [recurse_dict_dict, monoExtends]
      exact dictMono_recurseDict_of sd cd (fun k v hm cv => ih k v hm cv)

theorem dictMono_update (s f : List (String × Val)) :
    dictMono s (update_state_with_categories s f) = true := by
  have := mono_recurse (.vdict s) (.vdict f)
  simpa [recurse_dict_dict, monoExtends, update_state_with_categories] using this

theorem dictMono_trans (a b c : List (String × Val)) (h1 : dictMono a b = true)
    (h2 : dictMono b c = true) : dictMono a c = true := by
  have := mono_trans (.vdict a) (.vdict b) (.vdict c)
    (by simpa [monoExtends] using h1) (by simpa [monoExtends] using h2)
  simpa [monoExtends] using this

/-- Any sequence of fill-empty-only merges only extends the state. -/
theorem dictMono_foldl_update : ∀ (fs : List (List (String × Val)))
    (s : List (String × Val)),
    dictMono s (fs.foldl update_state_with_categories s) = true := by
  intro fs
  induction fs with
  | nil => intro s; exact dictMono_refl s
  | cons f rest ih =>
    intro s
    simp only [List.foldl_cons]
    exact dictMono_trans s (update_state_with_categories s f) _
      (dictMono_update s f) (ih (update_state_with_categories s f))

theorem shapeDict_recurseDict_of : ∀ (sd cd : List (String × Val)),
    (∀ k v, (k, v) ∈ sd → ∀ cv, shape (recurse v cv) = shape v) →
    shapeDict (recurseDict sd cd) = shapeDict sd := by
  intro sd cd
  induction sd with
  | nil => intro _; rfl
  | cons p rest ihd =>
    intro IH
    obtain ⟨k, v⟩ := p
    simp only [recurseDict]
    cases h : alookup cd k with
    | none =>
      simp only [shapeDict]
      exact List.cons_eq_cons.mpr ⟨rfl, ihd (fun k2 v2 hm cv => IH k2 v2 (by simp [hm]) cv)⟩
    | some cv =>
      simp only [shapeDict]
      exact List.cons_eq_cons.mpr
        ⟨by rw [IH k v (by simp) cv],
         ihd (fun k2 v2 hm cv2 => IH k2 v2 (by simp [hm]) cv2)⟩

/-- Merging never adds or removes dict keys at any depth: the nested key
structure of the state is preserved exactly. -/
theorem shape_recurse : ∀ s c, shape (recurse s c) = shape s := by
  intro s
  induction s using Val.inductionOn with
  | hnull =>
    intro c
    cases c with
    | vnull => simp [recurse, emptyScalar, shape]
    | vstr u =>
      by_cases hu : u = "NO"
      · subst hu; simp [recurse_no_sentinel]
      · simp [recurse, emptyScalar, hu, shape]
    | vnat n => simp [recurse, emptyScalar, shape]
    | vlist cl => simp [recurse, emptyScalar, shape]
    | vdict cd => simp [recurse]
  | hstr t =>
    intro c
    by_cases ht : t = ""
    · subst ht
      cases c with
      | vnull => simp [recurse, emptyScalar, shape]
      | vstr u =>
        by_cases hu : u = "NO"
        · subst hu; simp [recurse_no_sentinel]
        · simp [recurse, emptyScalar, hu, shape]
      | vnat n => simp [recurse, emptyScalar, shape]
      | vlist cl => simp [recurse, emptyScalar, shape]
      | vdict cd => simp [recurse]
    · cases c with
      | vnull => simp [recurse, emptyScalar, ht]
      | vstr u => simp [recurse, emptyScalar, ht]
      | vnat n => simp [recurse, emptyScalar, ht]
      | vlist cl => simp [recurse, emptyScalar, ht]
      | vdict cd => simp [recurse]
  | hnat n =>
    intro c
    cases c <;> simp [recurse, emptyScalar]
  | hlist sl ih =>
    intro c
    cases c with
    | vnull => simp [recurse, emptyScalar]
    | vstr u => simp [recurse, emptyScalar]
    | vnat n => simp [recurse, emptyScalar]
    | vlist cl => simp [recurse_list_list, shape]
    | vdict cd => simp [recurse]
  | hdict sd ih =>
    intro c
    cases c with
    | vnull => simp [recurse, emptyScalar]
    | vstr u => simp [recurse, emptyScalar]
    | vnat n => simp [recurse, emptyScalar]
    | vlist cl => simp [recurse, emptyScalar]
    | vdict cd =>
      simp only [recurse_dict_dict, shape]
      exact congrArg Val.vdict (shapeDict_recurseDict_of sd cd (fun k v hm cv => ih k v hm cv))

theorem alookup_append_right {α : Type} (d : List (String × α)) (k : String)
    (v : α) (h : alookup d k = none) : alookup (d ++ [(k, v)]) k = some v := by
  induction d with
  | nil => simp [alookup]
  | cons p rest ih =>
    obtain ⟨pk, pv⟩ := p
    by_cases hp : pk = k
    · subst hp; simp [alookup] at h
    · have hpb : (pk == k) = false := by simp [hp]
      simp only [alookup, hpb, Bool.false_eq_true, if_false] at h
      simpa [alookup, hpb] using ih h

theorem alookup_aset_self {α : Type} (d : List (String × α)) (k : String)
    (v : α) : alookup (aset d k v) k = some v := by
  unfold aset
  cases h : alookup d k with
  | none => simpa [h] using alookup_append_right d k v h
  | some w =>
    simp only [h, Option.isSome_some, if_true]
    induction d with
    | nil => simp [alookup] at h
    | cons p rest ih =>
      obtain ⟨pk, pv⟩ := p
      by_cases hp : pk = k
      · subst hp; simp [alookup]
      · have hpb : (pk == k) = false := by simp [hp]
        simp only [alookup, hpb, Bool.false_eq_true, if_false] at h
        simpa [alookup, hpb] using ih h

/-- C9: command caching is at-most-once per action (a cache hit short-circuits
execution, so a repeated call returns the identical output with no further
external invocation), and a raising or timed-out external command is
recoverable: an error record is appended, empty output is substituted, and
`perform_action` returns normally. -/
theorem C9_command_cache_and_error_recovery :
    (∀ (run : String → Except String String) (name : String) (st : CommandState)
        (action : String) (now now2 : Nat),
      (perform_action run name (perform_action run name st action now).1 action now2).2
        = (perform_action run name st action now).2
      ∧ (perform_action run name (perform_action run name st action now).1 action now2).1
        = (perform_action run name st action now).1
      ∧ (perform_action run name st action now).1.calls ≤ st.calls + 1)
    ∧ (∀ (run : String → Except String String) (name : String) (st : CommandState)
        (action : String) (now : Nat) (e : String),
      alookup st.command_cache action = none →
      run (action.replace "{ip}" (target_ip st.bb)) = .error e →
      alookup st.bb.mem "errors" = none →
      (perform_action run name st action now).2 = ""
      ∧ alookup (perform_action run name st action now).1.bb.mem "errors"
        = some (.vlist [.vdict [("agent", .vstr name), ("action", .vstr action),
            ("error", .vstr e), ("timestamp", .vnat now)]])) := by
  constructor
  · intro run name st action now now2
    cases hc : alookup st.command_cache action with
    | some cached =>
      simp [perform_action, hc]
    | none =>
      cases hr : run (action.replace "{ip}" (target_ip st.bb)) with
      | ok out =>
        simp only [perform_action, hc, hr]
        simp [alookup_aset_self]
      | error e =>
        simp only [perform_action, hc, hr]
        simp [alookup_aset_self, add_error, save_to_file, target_ip]
  · intro run name st action now e hc hr herr
    simp only [perform_action, hc, hr]
    constructor
    · trivial
    · simp only [add_error, save_to_file, setdefault_append, herr]
      exact alookup_append_right _ _ _ herr

/-- C9 witness: the error branch at a concrete timing-out command. -/
theorem C9_witness :
    (perform_action (fun _ => .error "timed out") "ReconAgent"
        { command_cache := [],
          bb := { mem := [("target", .vdict [("ip", .vstr "10.0.0.5")])], file := none },
          calls := 0 } "scan {ip}" 7).2 = ""
    ∧ alookup (perform_action (fun _ => .error "timed out") "ReconAgent"
        { command_cache := [],
          bb := { mem := [("target", .vdict [("ip", .vstr "10.0.0.5")])], file := none },
          calls := 0 } "scan {ip}" 7).1.bb.mem "errors"
      = some (.vlist [.vdict [("agent", .vstr "ReconAgent"), ("action", .vstr "scan {ip}"),
          ("error", .vstr "timed out"), ("timestamp", .vnat 7)]]) :=
  C9_command_cache_and_error_recovery.2 (fun _ => .error "timed out") "ReconAgent"
    { command_cache := [],
      bb := { mem := [("target", .vdict [("ip", .vstr "10.0.0.5")])], file := none },
      calls := 0 } "scan {ip}" 7 "timed out" rfl rfl rfl

theorem recurse_fills_empty (s c : Val) (hs : emptyScalar s = true)
    (hc1 : c ≠ .vstr "NO") (hc2 : isScalar c = true) : recurse s c = c := by
  cases c with
  | vdict d => simp [isScalar] at hc2
  | vlist l => simp [isScalar] at hc2
  | vnull =>
    cases s with
    | vnull => simp [recurse, emptyScalar]
    | vstr u =>
      have hu : u = "" := by simpa [emptyScalar] using hs
      subst hu; simp [recurse, emptyScalar]
    | vnat n => simp [emptyScalar] at hs
    | vlist l => simp [emptyScalar] at hs
    | vdict d => simp [emptyScalar] at hs
  | vnat n =>
    cases s with
    | vnull => simp [recurse, emptyScalar]
    | vstr u =>
      have hu : u = "" := by simpa [emptyScalar] using hs
      subst hu; simp [recurse, emptyScalar]
    | vnat m => simp [emptyScalar] at hs
    | vlist l => simp [emptyScalar] at hs
    | vdict d => simp [emptyScalar] at hs
  | vstr t =>
    have ht : ¬ t = "NO" := fun h => hc1 (by rw [h])
    cases s with
    | vnull => simp [recurse, emptyScalar, ht]
    | vstr u =>
      have hu : u = "" := by simpa [emptyScalar] using hs
      subst hu; simp [recurse, emptyScalar, ht]
    | vnat n => simp [emptyScalar] at hs
    | vlist l => simp [emptyScalar] at hs
    | vdict d => simp [emptyScalar] at hs

theorem recurse_keeps_filled (v w : Val) (h1 : isScalar v = true)
    (h2 : emptyScalar v = false) : recurse v w = v := by
  cases v with
  | vdict d => simp [isScalar] at h1
  | vlist l => simp [isScalar] at h1
  | vnull => simp [emptyScalar] at h2
  | vnat n =>
    cases w with
    | vdict d => simp [recurse]
    | vlist l => simp [recurse, emptyScalar]
    | vnull => simp [recurse, emptyScalar]
    | vnat m => simp [recurse, emptyScalar]
    | vstr u =>
      by_cases hu : u = "NO"
      · subst hu; exact recurse_no_sentinel _
      · simp [recurse, emptyScalar, hu]
  | vstr t =>
    have ht : ¬ t = "" := by simpa [emptyScalar] using h2
    cases w with
    | vdict d => simp [recurse]
    | vlist l => simp [recurse, emptyScalar, ht]
    | vnull => simp [recurse, emptyScalar, ht]
    | vnat m => simp [recurse, emptyScalar, ht]
    | vstr u =>
      by_cases hu : u = "NO"
      · subst hu; exact recurse_no_sentinel _
      · simp [recurse, emptyScalar, ht, hu]

/-- C2: fill-empty-only merge semantics on an empty scalar leaf: a fragment
carrying a genuine scalar value (non-empty, not the `"NO"` sentinel) fills
the empty `target.hostname` leaf, and a second fragment with any other value
leaves the first value in place. -/
theorem C2_fill_empty_only (cur v v' : Val) (hcur : emptyScalar cur = true)
    (hv1 : isScalar v = true) (hv2 : v ≠ .vstr "NO")
    (hv3 : emptyScalar v = false) :
    update_state_with_categories
        [("target", .vdict [("hostname", cur)])]
        [("target", .vdict [("hostname", v)])]
      = [("target", .vdict [("hostname", v)])]
    ∧ update_state_with_categories
        [("target", .vdict [("hostname", v)])]
        [("target", .vdict [("hostname", v')])]
      = [("target", .vdict [("hostname", v)])] := by
  constructor
  · simp [update_state_with_categories, recurseDict, alookup, recurse_dict_dict,
      recurse_fills_empty cur v hcur hv2 hv1]
  · simp [update_state_with_categories, recurseDict, alookup, recurse_dict_dict,
      recurse_keeps_filled v v' hv1 hv3]

/-- C2 witness: the spec's concrete hostname scenario. -/
theorem C2_witness :
    emptyScalar (.vstr "") = true
    ∧ (update_state_with_categories
        [("target", .vdict [("hostname", .vstr "")])]
        [("target", .vdict [("hostname", .vstr "box1")])]
      = [("target", .vdict [("hostname", .vstr "box1")])]
    ∧ update_state_with_categories
        [("target", .vdict [("hostname", .vstr "box1")])]
        [("target", .vdict [("hostname", .vstr "other")])]
      = [("target", .vdict [("hostname", .vstr "box1")])]) :=
  ⟨rfl, C2_fill_empty_only (.vstr "") (.vstr "box1") (.vstr "other")
    (by decide) (by decide) (by decide) (by decide)⟩

/-- C3: merge idempotence: applying `update_state_with_categories` twice with
the same fragment equals applying it once, for every state and fragment;
in particular re-merging `[{"port": 22}]` into `target.services` adds no
duplicate. -/
theorem C3_merge_idempotent :
    (∀ (s f : List (String × Val)),
      update_state_with_categories (update_state_with_categories s f) f
        = update_state_with_categories s f)
    ∧ update_state_with_categories
        [("target", .vdict [("services", .vlist [])])]
        [("target", .vdict [("services", .vlist [.vdict [("port", .vnat 22)]])])]
      = [("target", .vdict [("services", .vlist [.vdict [("port", .vnat 22)]])])]
    ∧ update_state_with_categories
        (update_state_with_categories
          [("target", .vdict [("services", .vlist [])])]
          [("target", .vdict [("services", .vlist [.vdict [("port", .vnat 22)]])])])
        [("target", .vdict [("services", .vlist [.vdict [("port", .vnat 22)]])])]
      = [("target", .vdict [("services", .vlist [.vdict [("port", .vnat 22)]])])] :=
  ⟨fun s f => recurseDict_idem_of s f (fun _ v _ cv => recurse_idem v cv),
   by decide, by decide⟩

/-- C10: the merge introduces no new keys and drops none at any dict depth
(the nested key structure of the result equals the state's, so fragment keys
absent from the state are silently dropped), and a fragment value equal to
the string `"NO"` is never written, not even into an empty leaf. -/
theorem C10_merge_preserves_keys_and_ignores_sentinel :
    (∀ (s f : List (String × Val)),
      shapeDict (update_state_with_categories s f) = shapeDict s)
    ∧ (∀ v : Val, recurse v (.vstr "NO") = v) :=
  ⟨fun s f => shapeDict_recurseDict_of s f (fun _ v _ cv => shape_recurse v cv),
   recurse_no_sentinel⟩

/-- C1 (amended): every sequence of `update_state_with_categories` merges
only extends the state: identical key structure, non-empty scalars unchanged,
empty scalars at most filled, and every list keeps its elements (the old
list is a prefix of the new). -/
theorem C1_merge_sequences_monotone :
    ∀ (s : List (String × Val)) (fs : List (List (String × Val))),
      dictMono s (fs.foldl update_state_with_categories s) = true :=
  fun s fs => dictMono_foldl_update fs s

/-- C1 counterexample: a `BlackboardAPI.update_state` commit does NOT
preserve an already non-empty durable scalar: `_update_from_recon_agent`
merges via `dict.update`, overwriting `target.hostname = "box1"` with
`"other"`. -/
theorem C1_counterexample_update_state_overwrites :
    emptyScalar (.vstr "box1") = false
    ∧ (update_state "ReconAgent"
        { mem := [("target", .vdict [("hostname", .vstr "box1")])], file := none }
        [("target", .vdict [("hostname", .vstr "other")])]).toOption
      = some { mem := [("target", .vdict [("hostname", .vstr "other")])],
               file := some [("target", .vdict [("hostname", .vstr "other")])] }
    ∧ Val.vstr "other" ≠ .vstr "box1" := by
  refine ⟨by decide, by decide, by decide⟩

/-- C5 (amended): the `BlackboardAPI` operations that call `_save_to_file`
(`append_action_log`, `record_reward`, `add_error`, `overwrite_blackboard`,
and a successful `update_state`) leave the durable file holding the complete
serialized current state. -/
theorem C5_amended_saving_ops_persist :
    (∀ (bb : Blackboard) (e : List (String × Val)) (now : Nat),
      (append_action_log bb e now).file = some (append_action_log bb e now).mem)
    ∧ (∀ (bb : Blackboard) (a : String) (r : Val) (now : Nat),
      (record_reward bb a r now).file = some (record_reward bb a r now).mem)
    ∧ (∀ (bb : Blackboard) (ag ac er : String) (now : Nat),
      (add_error bb ag ac er now).file = some (add_error bb ag ac er now).mem)
    ∧ (∀ (bb : Blackboard) (ns : List (String × Val)),
      (overwrite_blackboard bb ns).file = some (overwrite_blackboard bb ns).mem)
    ∧ (∀ (name : String) (bb bb' : Blackboard) (ns : List (String × Val)),
      update_state name bb ns = .ok bb' → bb'.file = some bb'.mem) := by
  refine ⟨fun _ _ _ => rfl, fun _ _ _ _ => rfl, fun _ _ _ _ _ => rfl, fun _ _ => rfl, ?_⟩
  intro name bb bb' ns h
  unfold update_state at h
  by_cases h1 : (pyLower name == "reconagent") = true
  · simp only [h1, if_true, Except.ok.injEq] at h
    subst h; rfl
  · simp only [h1, Bool.false_eq_true, if_false] at h
    by_cases h2 : (pyLower name == "vulnagent") = true
    · simp only [h2, if_true, Except.ok.injEq] at h
      subst h; rfl
    · simp only [h2, Bool.false_eq_true, if_false] at h
      exact absurd h (by simp)

/-- C5 witness: a successful concrete `update_state` commit is persisted. -/
theorem C5_witness :
    (save_to_file bbBox).file = some (save_to_file bbBox).mem :=
  C5_amended_saving_ops_persist.2.2.2.2 "ReconAgent" bbBox (save_to_file bbBox) [] rfl

/-- C5 counterexample: `fill_state` and `update_target_services` mutate the
in-memory blackboard without calling `_save_to_file`, leaving the durable
file stale. -/
theorem C5_counterexample_not_persisted :
    (fill_state bbServices (.vlist [])).file
      ≠ some (fill_state bbServices (.vlist [])).mem
    ∧ (update_target_services bbServices [.vdict [("port", .vnat 22)]]).file
      ≠ some (update_target_services bbServices [.vdict [("port", .vnat 22)]]).mem := by
  refine ⟨by decide, by decide⟩

/-- C6: `append_action_log` never appends anything: the line adding the entry
to `actions_log` is commented out in the source, so the blackboard mapping is
unchanged by every call (shown generally and on a concrete initialized log),
contradicting the documented contract that each call appends a timestamped
record. -/
theorem C6_append_action_log_appends_nothing :
    (∀ (bb : Blackboard) (entry : List (String × Val)) (now : Nat),
      (append_action_log bb entry now).mem = bb.mem)
    ∧ (append_action_log { mem := [("actions_log", .vlist [])], file := none }
        [("agent", .vstr "ReconAgent"), ("action", .vstr "scan {ip}"),
         ("result", .vstr "")] 5).mem
      = [("actions_log", .vlist [])] :=
  ⟨fun _ _ _ => rfl, rfl⟩

/-- C7 (amended): action selection never mutates the policy state — neither
the exploring branch (`rnd < epsilon`) nor the exploitation branch touches
epsilon — and the separate `decay_epsilon` method (never invoked by
`choose_action`) is the only decay: under the source's parameter regime
(non-negative floor below epsilon, decay factor at most 1) it keeps epsilon
within `[min_epsilon, epsilon]`. -/
theorem C7_amended_epsilon_policy :
    (∀ (a : AgentPolicy) (acts : List String) (q : List Rat) (rnd : Rat) (i : Nat),
      (choose_action a acts q rnd i).2 = a)
    ∧ (∀ a : AgentPolicy, 0 ≤ a.min_epsilon → a.min_epsilon ≤ a.epsilon →
        a.epsilon_decay ≤ 1 →
        a.min_epsilon ≤ (decay_epsilon a).epsilon
        ∧ (decay_epsilon a).epsilon ≤ a.epsilon) := by
  constructor
  · intro a acts q rnd i; rfl
  · intro a h0 hm hd
    constructor
    · exact le_max_right _ _
    · refine max_le ?_ hm
      calc a.epsilon * a.epsilon_decay ≤ a.epsilon * 1 :=
            mul_le_mul_of_nonneg_left hd (le_trans h0 hm)
        _ = a.epsilon := mul_one _

/-- C7 witness: selection leaves the concrete policy unchanged, and decay at
the concrete policy stays within its bounds. -/
theorem C7_witness :
    (choose_action policy0 ["scan {ip}", "enum {ip}"] [0, 0] 0 1).2 = policy0
    ∧ (policy0.min_epsilon ≤ (decay_epsilon policy0).epsilon
       ∧ (decay_epsilon policy0).epsilon ≤ policy0.epsilon) :=
  ⟨C7_amended_epsilon_policy.1 policy0 ["scan {ip}", "enum {ip}"] [0, 0] 0 1,
   C7_amended_epsilon_policy.2 policy0 (le_refl 0) zero_le_one zero_le_one⟩

/-- C7 counterexample: on the exploring branch (`rnd = 0` is below
`epsilon = 1`) `choose_action` does not decay epsilon: the policy state is
returned unchanged with epsilon still 1, whereas the claimed geometric decay
`max(epsilon * decay, min_epsilon)` would give 0. -/
theorem C7_counterexample_no_decay_on_exploration :
    (0 : Rat) < policy0.epsilon
    ∧ (choose_action policy0 ["scan {ip}", "enum {ip}"] [0, 0] 0 1).2.epsilon
      = policy0.epsilon
    ∧ policy0.epsilon ≠ max (policy0.epsilon * policy0.epsilon_decay) policy0.min_epsilon := by
  refine ⟨zero_lt_one, rfl, ?_⟩
  simp [policy0, decay_epsilon]

/-- C8 (amended): a cached truthy entry (non-empty text or non-empty parsed
list) is served from the cache — the extraction step is a no-op, so the
external collaborator is not re-invoked and nothing is re-parsed — and on a
miss (or a falsy cached entry) the reply is classified exactly once at write
time: a JSON list is stored parsed, anything else as stripped raw text. -/
theorem C8_amended_extraction_cache :
    (∀ (tryList : String → Option (List Val)) (model : String → String)
        (st : ExtractionState) (key : String) (cv : CacheVal),
      alookup st.cache key = some cv → truthyCache cv = true →
      parse_output_step tryList model st key = st)
    ∧ (∀ (tryList : String → Option (List Val)) (model : String → String)
        (st : ExtractionState) (key : String),
      alookup st.cache key = none →
      parse_output_step tryList model st key
        = { cache := aset st.cache key (classifyReply tryList (model key)),
            calls := st.calls + 1 }) := by
  constructor
  · intro tryList model st key cv hc ht
    simp [parse_output_step, hc, ht]
  · intro tryList model st key hc
    simp [parse_output_step, hc]

/-- C8 witness: a truthy cached entry short-circuits (same state back), and a
miss stores the write-time classification. -/
theorem C8_witness :
    parse_output_step (fun _ => none) (fun _ => "ignored")
      { cache := [("scan {ip}::target::hostname", .ctext "box1")], calls := 1 }
      "scan {ip}::target::hostname"
    = { cache := [("scan {ip}::target::hostname", .ctext "box1")], calls := 1 }
    ∧ parse_output_step (fun _ => none) (fun _ => " box1 ")
      { cache := [], calls := 0 } "scan {ip}::target::hostname"
    = { cache := aset [] "scan {ip}::target::hostname"
          (classifyReply (fun _ => none) " box1 "),
        calls := 1 } :=
  ⟨C8_amended_extraction_cache.1 (fun _ => none) (fun _ => "ignored")
    { cache := [("scan {ip}::target::hostname", .ctext "box1")], calls := 1 }
    "scan {ip}::target::hostname" (.ctext "box1") rfl rfl,
   C8_amended_extraction_cache.2 (fun _ => none) (fun _ => " box1 ")
    { cache := [], calls := 0 } "scan {ip}::target::hostname" rfl⟩

/-- C8 counterexample: when the classified reply is falsy — here the model
returns the empty string, cached as empty text — the next run for the same
`(action, leaf)` key misses again (`if cached_response:` is Python
truthiness), so the external collaborator is invoked twice. -/
theorem C8_counterexample_empty_reply_requeried :
    (parse_output_step (fun _ => none) (fun _ => "")
      (parse_output_step (fun _ => none) (fun _ => "")
        { cache := [], calls := 0 } "scan {ip}::target::hostname")
      "scan {ip}::target::hostname").calls = 2 := by
  decide

/-- C4: the fragment committed by `BaseAgent.run` is the merged state itself,
not the output of the clean/sort pipeline: `check_state` is called but its
return value is discarded, and on the initialized blackboard the two differ
(the pipeline reorders keys deterministically, e.g. `target.rpc_services`
before `target.services`). -/
theorem C4_commit_bypasses_pipeline :
    run_commit_fragment init_blackboard []
      = update_state_with_categories init_blackboard []
    ∧ Val.vdict (run_commit_fragment init_blackboard [])
      ≠ check_state (.vdict (update_state_with_categories init_blackboard [])) :=
  ⟨rfl, by decide⟩
